import Mathlib

/-!
# Verification of ProjectInsight core subsystems

Shallow embedding of the core data model and operations of the
ProjectInsight repository (`src/projectinsight`), together with proofs of
the specified properties:

* `core/cache_manager.py` — the incremental analysis cache (`CacheManager`),
* `core/parallel_manager.py` — the map-reduce runner (`ParallelManager.execute_map_reduce`),
* `builders/component_builder.py` — the graph assembler and focus BFS
  (`_perform_focus_analysis`, `build_component_graph_data`),
* `core/interactive_wizard.py` — the recommendation ranking
  (`InteractiveWizard.analyze_graph_and_recommend` / `run`).

Python dicts are modelled as association lists, Python sets as duplicate-free
lists, and the `while` loops as fuel-based recursion with explicitly
sufficient fuel.
-/

namespace ProjectInsight

/-! ## CacheManager (`core/cache_manager.py`)

File contents live outside the program; the cache only ever sees a file
through its MD5 digest (`_compute_file_hash`) and its project-relative key
(`_get_relative_key`).  Both are OS / stdlib plumbing (declared out of scope
by the spec, §1 and §6), so they enter the model as oracles:
`hashOf : String → String` gives each absolute path's current content digest
(the code maps an unreadable file to `""`), and
`relKey : String → Option String` gives the project-relative forward-slash
key, `none` when the path is outside the project root.  A fixed project root
determines a fixed `relKey`. -/

/-- `CACHE_VERSION` from `cache_manager.py`. -/
def CACHE_VERSION : String := "1.1.3"

/-- One value of `cache_data[relative_path]`: the dict
`{"hash": file_hash, "data": data}` written by `CacheManager.update`. -/
structure CacheEntry (α : Type) where
  hash : String
  data : α
deriving DecidableEq, Repr

/-- In-memory state of a `CacheManager`: its configuration fingerprint, the
`cache_data` dict (association list keyed by relative path) and the `dirty`
flag.  The project root is represented only through the `relKey` oracle. -/
structure CacheManager (α : Type) where
  config_fingerprint : String
  cache_data : List (String × CacheEntry α)
  dirty : Bool
deriving DecidableEq, Repr

/-- The on-disk pickle written by `CacheManager.save`:
`{"_meta": {"version", "config_fingerprint"}, "entries": cache_data}`. -/
structure SavedCache (α : Type) where
  version : String
  config_fingerprint : String
  entries : List (String × CacheEntry α)
deriving DecidableEq, Repr

/-- `CacheManager.__init__`: fresh manager, empty `cache_data`, not dirty. -/
def CacheManager.init (α : Type) (config_fingerprint : String) : CacheManager α :=
  { config_fingerprint := config_fingerprint, cache_data := [], dirty := false }

/-- Association-list lookup, modelling `dict.get`. -/
def assocGet {α : Type} (l : List (String × α)) (k : String) : Option α :=
  match l with
  | [] => none
  | (k', v) :: rest => if k' = k then some v else assocGet rest k

/-- Association-list update, modelling `dict[k] = v` (replace in place, or
append a new binding). -/
def assocSet {α : Type} (l : List (String × α)) (k : String) (v : α) :
    List (String × α) :=
  match l with
  | [] => [(k, v)]
  | (k', v') :: rest =>
    if k' = k then (k, v) :: rest else (k', v') :: assocSet rest k v

/-- `CacheManager.get`: resolve the relative key (`None` → miss), look the
entry up (absent → miss), recompute the file's content hash and compare with
the stored one (mismatch → miss), otherwise return the stored data. -/
def CacheManager.get {α : Type} (relKey : String → Option String)
    (hashOf : String → String) (m : CacheManager α) (file_path : String) :
    Option α :=
  match relKey file_path with
  | none => none
  | some relative_path =>
    match assocGet m.cache_data relative_path with
    | none => none
    | some entry =>
      if entry.hash ≠ hashOf file_path then none else some entry.data

/-- `CacheManager.update`: resolve the relative key (`None` → no-op), store
`{"hash": current hash, "data": data}` under it and mark the cache dirty. -/
def CacheManager.update {α : Type} (relKey : String → Option String)
    (hashOf : String → String) (m : CacheManager α) (file_path : String)
    (data : α) : CacheManager α :=
  match relKey file_path with
  | none => m
  | some relative_path =>
    { m with
      cache_data :=
        assocSet m.cache_data relative_path
          { hash := hashOf file_path, data := data }
      dirty := true }

/-- `CacheManager.prune`: drop every entry whose key is not the relative key
of one of `current_files`; set `dirty` when anything was dropped. -/
def CacheManager.prune {α : Type} (relKey : String → Option String)
    (m : CacheManager α) (current_files : List String) : CacheManager α :=
  let current_keys := current_files.filterMap relKey
  let kept := m.cache_data.filter (fun kv => kv.1 ∈ current_keys)
  if kept.length = m.cache_data.length then m
  else { m with cache_data := kept, dirty := true }

/-- `CacheManager.save`: a no-op on a clean cache; otherwise serialize
`{_meta: {version, config_fingerprint}, entries}` to disk (the temp-file /
atomic-rename mechanics collapse, in this crash-free model, to replacing the
disk value) and clear `dirty`.  Returns the new manager state and disk
state. -/
def CacheManager.save {α : Type} (m : CacheManager α)
    (disk : Option (SavedCache α)) :
    CacheManager α × Option (SavedCache α) :=
  if ¬ m.dirty then (m, disk)
  else
    ({ m with dirty := false },
     some { version := CACHE_VERSION
            config_fingerprint := m.config_fingerprint
            entries := m.cache_data })

/-- `CacheManager.load`: missing file → empty cache; version mismatch →
empty; fingerprint mismatch → empty; otherwise adopt the stored entries.
(A corrupt pickle also resets to empty — represented by `disk = none`.) -/
def CacheManager.load {α : Type} (m : CacheManager α)
    (disk : Option (SavedCache α)) : CacheManager α :=
  match disk with
  | none => { m with cache_data := [] }
  | some loaded =>
    if loaded.version ≠ CACHE_VERSION then { m with cache_data := [] }
    else if loaded.config_fingerprint ≠ m.config_fingerprint then
      { m with cache_data := [] }
    else { m with cache_data := loaded.entries }

/-! ## ParallelManager (`core/parallel_manager.py`)

`execute_map_reduce` hands `(item, global_context)` pairs to
`ProcessPoolExecutor.map`, which yields results **in input order**; the
orchestrating loop appends each yielded result to `results`.  A task that
raises surfaces its exception when its (in-order) result is retrieved; the
surrounding `except Exception` then returns the `results` collected so far.
The worker pool is therefore observably the sequential in-order traversal
below; a fallible task is a function into `Except ε ρ`. -/

/-- The in-order collection loop of `execute_map_reduce`: append results
until the first item whose task raises, then stop (the `except` branch
returns the partial `results` list). -/
def collectMapResults {τ ε ρ Ctx : Type}
    (task_func : τ → Ctx → Except ε ρ) (global_context : Ctx) :
    List τ → List ρ
  | [] => []
  | item :: rest =>
    match task_func item global_context with
    | Except.ok r => r :: collectMapResults task_func global_context rest
    | Except.error _ => []

/-- `ParallelManager.execute_map_reduce` (the `max_workers` / `chunksize`
knobs only affect scheduling, not the ordered result list). -/
def execute_map_reduce {τ ε ρ Ctx : Type}
    (task_func : τ → Ctx → Except ε ρ) (items : List τ)
    (global_context : Ctx) : List ρ :=
  if items.length = 0 then []
  else collectMapResults task_func global_context items

/-! ## Component builder (`builders/component_builder.py`)

Nodes are FQN strings.  A call edge is a `(caller, callee)` pair, a semantic
edge a `(source, target, relation)` triple.  Python `set`s appear as
duplicate-free lists (all properties below are stated up to membership /
cardinality, which is all a `set` exposes), and the two `while queue:` BFS
loops are given explicit fuel; `seeds.length + edges.length + 1` is proved
sufficient below. -/

abbrev Edge := String × String

abbrev SEdge := String × String × String

/-- The `successors` adjacency dict built by `_perform_focus_analysis`
(`for u, v in all_edges: successors[u].append(v)`). -/
def successorsOf (all_edges : List Edge) (u : String) : List String :=
  (all_edges.filter (fun e => e.1 = u)).map (fun e => e.2)

/-- The `predecessors` adjacency dict built by `_perform_focus_analysis`
(`for u, v in all_edges: predecessors[v].append(u)`). -/
def predecessorsOf (all_edges : List Edge) (v : String) : List String :=
  (all_edges.filter (fun e => e.2 = v)).map (fun e => e.1)

/-- The inner loop of one BFS dequeue step:
`for neighbor in adj[node]: if neighbor not in visited: visited.add(neighbor);
queue.append((neighbor, depth + 1))`.  Returns the grown visited list and
queue. -/
def scanNeighbors (visited : List String) (queue : List (String × Nat))
    (d1 : Nat) : List String → List String × List (String × Nat)
  | [] => (visited, queue)
  | n :: ns =>
    if n ∈ visited then scanNeighbors visited queue d1 ns
    else scanNeighbors (visited ++ [n]) (queue ++ [(n, d1)]) d1 ns

/-- The BFS `while queue:` loop of `_perform_focus_analysis`: pop
`(node, depth)` from the front; if `depth >= current_depth` skip it,
otherwise enqueue its unvisited neighbours at `depth + 1`.  `fuel` bounds the
number of dequeues (the Python loop terminates because every enqueue adds a
distinct new node to `visited`). -/
def bfsAux (adj : String → List String) (maxD : Nat) :
    Nat → List (String × Nat) → List String → List String
  | 0, _, visited => visited
  | _ + 1, [], visited => visited
  | fuel + 1, (node, depth) :: rest, visited =>
    if maxD ≤ depth then bfsAux adj maxD fuel rest visited
    else
      let p := scanNeighbors visited rest (depth + 1) (adj node)
      bfsAux adj maxD fuel p.2 p.1

/-- One directional expansion of `_perform_focus_analysis`:
`visited = set(seeds); queue = deque([(ep, 0) for ep in seeds])` followed by
the BFS loop. -/
def bfsVisited (adj : String → List String) (maxD : Nat)
    (seeds : List String) (fuel : Nat) : List String :=
  bfsAux adj maxD fuel (seeds.map (fun s => (s, 0))) seeds

/-- The focus part of the `focus_config` dict, with the `.get(…, default)`
defaults used by `component_builder.py`. -/
structure FocusConfig where
  entrypoints : List String
  direction : String := "both"
  enable_dynamic_depth : Bool := true
  initial_depth : Nat := 2
  min_nodes : Nat := 10
  max_search_depth : Nat := 7
  max_nodes_for_bidirectional : Nat := 500
  auto_downstream_fallback : Bool := true
deriving Repr

/-- The seed set of `_perform_focus_analysis`:
`final_nodes = set(); for ep in entrypoints: if ep in all_nodes:
final_nodes.add(ep)` — the configured entry points present in the graph, as
a duplicate-free list. -/
def entrySeeds (focus_config : FocusConfig) (all_nodes : List String) :
    List String :=
  (focus_config.entrypoints.filter (fun ep => decide (ep ∈ all_nodes))).dedup

/-- `_perform_focus_analysis(all_nodes, all_edges, focus_config,
current_depth)`.  Empty `entrypoints` returns the inputs unchanged.
Otherwise: seed with the entry points present in `all_nodes`; for
`direction in ("both", "downstream")` expand along successors; for
`direction in ("both", "upstream")` expand along predecessors **starting
from everything collected so far**; finally keep the edges with both
endpoints in the final node set. -/
def perform_focus_analysis (all_nodes : List String) (all_edges : List Edge)
    (focus_config : FocusConfig) (current_depth : Nat) :
    List String × List Edge :=
  if focus_config.entrypoints = [] then (all_nodes, all_edges)
  else
    let final0 := entrySeeds focus_config all_nodes
    let afterDown :=
      if focus_config.direction = "both" ∨ focus_config.direction = "downstream" then
        bfsVisited (successorsOf all_edges) current_depth final0
          (final0.length + all_edges.length + 1)
      else final0
    let final_nodes :=
      if focus_config.direction = "both" ∨ focus_config.direction = "upstream" then
        bfsVisited (predecessorsOf all_edges) current_depth afterDown
          (afterDown.length + all_edges.length + 1)
      else afterDown
    (final_nodes,
     all_edges.filter (fun e =>
       decide (e.1 ∈ final_nodes) && decide (e.2 ∈ final_nodes)))

/-- `fnmatch.fnmatch` pattern matching restricted to the `*` and `?`
wildcards (on Linux `fnmatch` does no case normalization; the repository's
exclude patterns use only `*`).  First argument is the pattern, second the
candidate name, as character lists. -/
def globMatchChars : List Char → List Char → Bool
  | [], [] => true
  | [], _ :: _ => false
  | '*' :: ps, [] => globMatchChars ps []
  | '*' :: ps, c :: cs => globMatchChars ps (c :: cs) || globMatchChars ('*' :: ps) cs
  | '?' :: _, [] => false
  | '?' :: ps, _ :: cs => globMatchChars ps cs
  | _ :: _, [] => false
  | p :: ps, c :: cs => p = c && globMatchChars ps cs
termination_by p t => (p.length, t.length)

/-- `fnmatch.fnmatch(name, pattern)` on strings. -/
def fnmatchB (name pattern : String) : Bool :=
  globMatchChars pattern.data name.data

/-- The fields of the dict returned by `build_component_graph_data` that
carry graph structure.  (`docstrings` is an untouched pass-through of the
`docstring_map` argument, and `nodes_by_module` a regrouping of `nodes` by
owner module; neither adds nodes or edges, and the claims do not mention
them.)  The Python `sorted(...)` calls fix a presentation order on the three
sets; sets-as-lists are compared up to membership here. -/
structure GraphData where
  nodes : List String
  edges : List Edge
  semantic_edges : List SEdge
  high_level_components : List String
deriving Repr

/-- The `while current_depth <= max_search_depth:` depth-escalation loop of
`build_component_graph_data` (dynamic-depth branch).  State: the current
direction (it stays `"downstream"` once the bidirectional fallback has
fired), the current depth, and the best `(nodes, edges)` so far.  `fuel`
bounds the iteration count; the depth grows by one per iteration, so
`max_search_depth + 2` dequeues always suffice. -/
def dynamic_focus_loop (initial_nodes : List String)
    (component_edges : List Edge) (focus_config : FocusConfig) :
    Nat → String → Nat → List String × List Edge → List String × List Edge
  | 0, _, _, cur => cur
  | fuel + 1, dir, d, cur =>
    if d ≤ focus_config.max_search_depth then
      let t := perform_focus_analysis initial_nodes component_edges
        { focus_config with direction := dir } d
      let dt :=
        if dir = "both" ∧ focus_config.max_nodes_for_bidirectional < t.1.length ∧
            focus_config.auto_downstream_fallback = true then
          ("downstream",
           perform_focus_analysis initial_nodes component_edges
             { focus_config with direction := "downstream" } d)
        else (dir, t)
      if focus_config.min_nodes ≤ dt.2.1.length then dt.2
      else if d = focus_config.max_search_depth then dt.2
      else dynamic_focus_loop initial_nodes component_edges focus_config
        fuel dt.1 (d + 1) dt.2
    else cur

/-- `build_component_graph_data`: drop self-loop call edges unless
`show_internal_calls`; collect the initial node set from the call-edge
endpoints, the semantic-edge endpoints and `all_components`; run the focus
analysis (dynamic-depth loop, or one fixed-depth pass plus one bidirectional
fallback check); filter nodes by the `exclude_nodes` glob patterns; finally
drop every call edge and every semantic edge with an endpoint outside the
final node set. -/
def componentEdgesOf (call_graph : List Edge)
    (show_internal_calls : Bool) : List Edge :=
  if show_internal_calls then call_graph
  else call_graph.filter (fun e => decide (e.1 ≠ e.2))

/-- The initial node set of `build_component_graph_data`: the endpoints of
the (possibly self-loop-filtered) call edges, the endpoints of the semantic
edges, and all declared high-level components. -/
def initialNodesOf (component_edges : List Edge)
    (semantic_edges : List SEdge) (all_components : List String) :
    List String :=
  (component_edges.map (fun e => e.1) ++ component_edges.map (fun e => e.2) ++
   semantic_edges.map (fun s => s.1) ++ semantic_edges.map (fun s => s.2.1) ++
   all_components).dedup

def build_component_graph_data (call_graph : List Edge)
    (all_components : List String) (show_internal_calls : Bool)
    (exclude_patterns : List String) (focus_config : Option FocusConfig)
    (semantic_edges : List SEdge) : GraphData :=
  let component_edges := componentEdgesOf call_graph show_internal_calls
  let initial_nodes :=
    initialNodesOf component_edges semantic_edges all_components
  let cur :=
    match focus_config with
    | none => (initial_nodes, component_edges)
    | some cfg =>
      if cfg.entrypoints = [] then (initial_nodes, component_edges)
      else if cfg.enable_dynamic_depth then
        dynamic_focus_loop initial_nodes component_edges cfg
          (cfg.max_search_depth + 2) cfg.direction cfg.initial_depth
          (initial_nodes, component_edges)
      else
        let fixed := perform_focus_analysis initial_nodes component_edges
          { cfg with direction := cfg.direction } cfg.initial_depth
        if cfg.direction = "both" ∧ cfg.max_nodes_for_bidirectional < fixed.1.length ∧
            cfg.auto_downstream_fallback = true then
          perform_focus_analysis initial_nodes component_edges
            { cfg with direction := "downstream" } cfg.initial_depth
        else fixed
  let final_nodes :=
    if exclude_patterns ≠ [] then
      cur.1.filter (fun node =>
        !(exclude_patterns.any (fun pattern => fnmatchB node pattern)))
    else cur.1
  { nodes := final_nodes
    edges := cur.2.filter (fun e =>
      decide (e.1 ∈ final_nodes) && decide (e.2 ∈ final_nodes))
    semantic_edges := semantic_edges.filter (fun s =>
      decide (s.1 ∈ final_nodes) && decide (s.2.1 ∈ final_nodes))
    high_level_components := all_components }

/-! ## InteractiveWizard (`core/interactive_wizard.py`)

`analyze_graph_and_recommend` builds a `networkx.DiGraph` (insertion-ordered
node set), computes a per-node score — normalized PageRank / out-degree mix
scaled by the bonus / penalty / privacy / class-name multipliers and the
isolated-node damping — and then ranks with
`sorted(final_scores.items(), key=lambda item: item[1], reverse=True)`,
i.e. a *stable* sort on the score alone.  The numeric scoring runs on
floats; it enters the model as an abstract `score : String → ℚ` so that the
ranking and top-K structure (what the claims are about) can be settled
exactly.  Python's Timsort and `List.mergeSort` are both stable, so they
agree on every input. -/

/-- `networkx` node insertion: append if not already present. -/
def addGNode (acc : List String) (n : String) : List String :=
  if n ∈ acc then acc else acc ++ [n]

/-- The node order of the wizard's `DiGraph`: `G.add_nodes_from(nodes)`,
then `G.add_edge(u, v)` for every non-self-loop call edge, then for every
non-self-loop semantic edge (`add_edge` appends endpoints that are not nodes
yet). -/
def graphNodes (nodes : List String) (edges : List Edge)
    (semantic_edges : List SEdge) : List String :=
  let g0 := nodes.foldl addGNode []
  let g1 := edges.foldl
    (fun a e => if e.1 ≠ e.2 then addGNode (addGNode a e.1) e.2 else a) g0
  semantic_edges.foldl
    (fun a s => if s.1 ≠ s.2.1 then addGNode (addGNode a s.1) s.2.1 else a) g1

/-- `node.startswith(pkg)` as a prefix test on the character lists. -/
def startsWith (node pkg : String) : Bool :=
  List.isPrefixOf pkg.data node.data

/-- The insertion-ordered `final_scores.items()` list: the graph's nodes
that start with one of the `context_packages` (the `is_internal` test),
paired with their final score. -/
def candidateList (nodes : List String) (edges : List Edge)
    (semantic_edges : List SEdge) (context_packages : List String)
    (score : String → ℚ) : List (String × ℚ) :=
  ((graphNodes nodes edges semantic_edges).filter
    (fun node => context_packages.any (fun pkg => startsWith node pkg))).map
    (fun node => (node, score node))

/-- The comparison realized by
`sorted(..., key=lambda item: item[1], reverse=True)`: `a` may sit before
`b` iff `b`'s score is not larger. -/
def scoreDescLe (a b : String × ℚ) : Prop := b.2 ≤ a.2

instance : DecidableRel scoreDescLe :=
  fun a b => inferInstanceAs (Decidable (b.2 ≤ a.2))

instance : IsTotal (String × ℚ) scoreDescLe :=
  ⟨fun a b => le_total b.2 a.2⟩

instance : IsTrans (String × ℚ) scoreDescLe :=
  ⟨fun _ _ _ hab hbc => le_trans hbc hab⟩

/-- `self.sorted_candidates` as produced by `analyze_graph_and_recommend`.
Python's `sorted` is a *stable* sort on the score key; any two stable sorts
under the same comparison produce the same output list, so it is modelled by
the (stable, structurally recursive) `List.insertionSort`. -/
def sorted_candidates (nodes : List String) (edges : List Edge)
    (semantic_edges : List SEdge) (context_packages : List String)
    (score : String → ℚ) : List (String × ℚ) :=
  (candidateList nodes edges semantic_edges context_packages
    score).insertionSort scoreDescLe

/-- The top-K list formed by `InteractiveWizard.run`:
`filtered_candidates = [cand for cand in self.sorted_candidates if cand[0]
not in failed_attempts]`, then
`recommendations = [cand for cand in filtered_candidates if cand[1] > 0][:5]`. -/
def formRecommendations (sorted_cands : List (String × ℚ))
    (failed_attempts : List String) : List (String × ℚ) :=
  ((sorted_cands.filter (fun cand => decide (cand.1 ∉ failed_attempts))).filter
    (fun cand => decide ((0 : ℚ) < cand.2))).take 5

/-- Split a character list at every `'.'`. -/
def splitDots : List Char → List (List Char)
  | [] => [[]]
  | c :: cs =>
    if c = '.' then [] :: splitDots cs
    else
      match splitDots cs with
      | [] => [[c]]
      | p :: ps => (c :: p) :: ps

/-- The owning module of an FQN in the fallback sense of
`component_builder.py` (`node.rsplit(".", 1)[0]`): everything before the
last dot, or the FQN itself when it has no dot. -/
def moduleOf (fqn : String) : String :=
  let parts := splitDots fqn.data
  if parts.length ≤ 1 then fqn
  else ⟨List.intercalate ['.'] parts.dropLast⟩

/-! ## Auxiliary notions for analysing the focus BFS

`reachN adj S d` is the depth-bounded reachability closure the spec talks
about ("breadth-first expansion up to `depth` hops").  The intermediate
`freshOf` / `expandNodes` / `levelLoop2` functions decompose the queue-based
loop of `_perform_focus_analysis` into its breadth layers; the theorems
below prove the decomposition exact and then settle the claims against
`reachN`. -/

/-- The new nodes one dequeue step discovers: the neighbours not yet
visited, each immediately marked visited (so a duplicate neighbour is taken
once). -/
def freshOf (visited : List String) : List String → List String
  | [] => []
  | n :: ns =>
    if n ∈ visited then freshOf visited ns
    else n :: freshOf (visited ++ [n]) ns

/-- Process one whole breadth layer: expand every node of `front` in order,
accumulating the visited list and the next layer. -/
def expandNodes (adj : String → List String) :
    List String → List String → List String → List String × List String
  | visited, nexts, [] => (visited, nexts)
  | visited, nexts, n :: rest =>
    expandNodes adj (visited ++ freshOf visited (adj n))
      (nexts ++ freshOf visited (adj n)) rest

/-- Layer-synchronous form of the BFS loop: `b` remaining depth budget;
`frontA` the current layer, `frontB` the already-discovered part of the next
layer. -/
def levelLoop2 (adj : String → List String) :
    Nat → List String → List String → List String → List String
  | 0, _, _, visited => visited
  | b + 1, frontA, frontB, visited =>
    let p := expandNodes adj visited frontB frontA
    levelLoop2 adj b p.2 [] p.1

/-- All out-neighbours of a node set. -/
def nbrsFin (adj : String → List String) (S : Finset String) : Finset String :=
  S.biUnion (fun n => (adj n).toFinset)

/-- Depth-bounded reachability: the set of nodes reachable from `S` along
`adj` in at most `d` hops. -/
def reachN (adj : String → List String) (S : Finset String) : Nat → Finset String
  | 0 => S
  | d + 1 => reachN adj S d ∪ nbrsFin adj (reachN adj S d)

/-! ## Theorems: cache round-trip (C1) and map-reduce (C2, C9) -/

theorem assocGet_assocSet {α : Type} (l : List (String × α)) (k : String)
    (v : α) : assocGet (assocSet l k v) k = some v := by
  induction l with
  | nil => simp [assocSet, assocGet]
  | cons hd tl ih =>
    obtain ⟨k', v'⟩ := hd
    by_cases h : k' = k
    · simp [assocSet, assocGet, h]
    · simp [assocSet, assocGet, h, ih]

/-- C1.  Cache round-trip: with `F` inside the project root
(`relKey F = some k`), after `update(F, payload)`, `save()`, and a cold
`load()` by a fresh `CacheManager` with the same configuration fingerprint,
`get(F)` returns `payload` exactly when `F`'s content hash is unchanged, and
misses (returns `none`) when the hash differs from the one stored at update
time. -/
theorem cache_round_trip {α : Type} (relKey : String → Option String)
    (hashUpd hashGet : String → String) (m0 : CacheManager α)
    (disk0 : Option (SavedCache α)) (F : String) (payload : α) (k : String)
    (hk : relKey F = some k) :
    (hashGet F = hashUpd F →
      CacheManager.get relKey hashGet
        (CacheManager.load (CacheManager.init α m0.config_fingerprint)
          ((CacheManager.save
            (CacheManager.update relKey hashUpd m0 F payload) disk0).2))
        F = some payload) ∧
    (hashGet F ≠ hashUpd F →
      CacheManager.get relKey hashGet
        (CacheManager.load (CacheManager.init α m0.config_fingerprint)
          ((CacheManager.save
            (CacheManager.update relKey hashUpd m0 F payload) disk0).2))
        F = none) := by
  have hupd : CacheManager.update relKey hashUpd m0 F payload =
      { m0 with
        cache_data := assocSet m0.cache_data k
          { hash := hashUpd F, data := payload }
        dirty := true } := by
    simp [CacheManager.update, hk]
  rw [hupd]
  constructor
  · intro hsame
    simp [CacheManager.save, CacheManager.load, CacheManager.init,
      CacheManager.get, hk, assocGet_assocSet, hsame]
  · intro hdiff
    simp [CacheManager.save, CacheManager.load, CacheManager.init,
      CacheManager.get, hk, assocGet_assocSet]
    intro h
    exact absurd h.symm hdiff

/-- Witness for C1 at a concrete instantiation: key `"src/f.py"`, payload
`42`, hash `"h1"` at update time, re-read once with the same hash and once
with hash `"h2"`. -/
theorem cache_round_trip_witness :
    (CacheManager.get (fun _ => some "src/f.py") (fun _ => "h1")
      (CacheManager.load (CacheManager.init Nat "fp")
        ((CacheManager.save
          (CacheManager.update (fun _ => some "src/f.py") (fun _ => "h1")
            (CacheManager.init Nat "fp") "F.py" 42) none).2))
      "F.py" = some 42) ∧
    (CacheManager.get (fun _ => some "src/f.py") (fun _ => "h2")
      (CacheManager.load (CacheManager.init Nat "fp")
        ((CacheManager.save
          (CacheManager.update (fun _ => some "src/f.py") (fun _ => "h1")
            (CacheManager.init Nat "fp") "F.py" 42) none).2))
      "F.py" = none) :=
  ⟨(cache_round_trip (fun _ => some "src/f.py") (fun _ => "h1")
      (fun _ => "h1") (CacheManager.init Nat "fp") none "F.py" 42
      "src/f.py" rfl).1 rfl,
   (cache_round_trip (fun _ => some "src/f.py") (fun _ => "h1")
      (fun _ => "h2") (CacheManager.init Nat "fp") none "F.py" 42
      "src/f.py" rfl).2 (by decide)⟩

theorem collectMapResults_eq_map {τ ε ρ Ctx : Type}
    (task_func : τ → Ctx → Except ε ρ) (ctx : Ctx) (items : List τ)
    (f : τ → ρ) (h : ∀ x ∈ items, task_func x ctx = Except.ok (f x)) :
    collectMapResults task_func ctx items = items.map f := by
  induction items with
  | nil => rfl
  | cons hd tl ih =>
    have hhd := h hd (by simp)
    simp only [collectMapResults, hhd, List.map_cons]
    rw [ih (fun x hx => h x (by simp [hx]))]

/-- C2.  Map-reduce equivalence and order preservation: when no task raises
(every task evaluates to `Except.ok (f x)`), `execute_map_reduce` returns
exactly the sequential in-order map of the task over `items`: the result
equals `items.map f`, has the same length, and its `i`-th element is the
task's value on `items[i]`. -/
theorem map_reduce_equivalence {τ ε ρ Ctx : Type}
    (task_func : τ → Ctx → Except ε ρ) (items : List τ)
    (global_context : Ctx) (f : τ → ρ)
    (h : ∀ x ∈ items, task_func x global_context = Except.ok (f x)) :
    execute_map_reduce task_func items global_context = items.map f ∧
    (execute_map_reduce task_func items global_context).length =
      items.length ∧
    ∀ i : Nat, (execute_map_reduce task_func items global_context)[i]? =
      (items[i]?).map f := by
  have key : execute_map_reduce task_func items global_context =
      items.map f := by
    unfold execute_map_reduce
    split
    · rename_i hlen
      rw [List.length_eq_zero] at hlen
      simp [hlen]
    · exact collectMapResults_eq_map task_func global_context items f h
  refine ⟨key, ?_, ?_⟩
  · rw [key]; simp
  · intro i; rw [key]; simp [List.getElem?_map]

/-- Witness for C2: three items, a pure addition task. -/
theorem map_reduce_equivalence_witness :
    execute_map_reduce
      (fun (n : Nat) (c : Nat) => (Except.ok (n + c) : Except Unit Nat))
      [1, 2, 3] 10 = [11, 12, 13] :=
  (map_reduce_equivalence
    (fun (n : Nat) (c : Nat) => (Except.ok (n + c) : Except Unit Nat))
    [1, 2, 3] 10 (fun n => n + 10) (fun _ _ => rfl)).1

/-- C9.  Worker-failure partial results: if every item of `pre` succeeds and
`bad` raises, `execute_map_reduce` on `pre ++ bad :: post` does not
propagate the exception and returns exactly the in-order results of `pre`,
the longest prefix preceding the first failing item. -/
theorem worker_failure_partial_results {τ ε ρ Ctx : Type}
    (task_func : τ → Ctx → Except ε ρ) (global_context : Ctx)
    (pre post : List τ) (bad : τ) (f : τ → ρ) (e : ε)
    (hpre : ∀ x ∈ pre, task_func x global_context = Except.ok (f x))
    (hbad : task_func bad global_context = Except.error e) :
    execute_map_reduce task_func (pre ++ bad :: post) global_context =
      pre.map f := by
  have key : ∀ pre' : List τ,
      (∀ x ∈ pre', task_func x global_context = Except.ok (f x)) →
      collectMapResults task_func global_context (pre' ++ bad :: post) =
        pre'.map f := by
    intro pre'
    induction pre' with
    | nil => intro _; simp [collectMapResults, hbad]
    | cons hd tl ih =>
      intro hp
      have hhd := hp hd (by simp)
      simp only [List.cons_append, collectMapResults, hhd, List.map_cons,
        List.append_eq]
      rw [ih (fun x hx => hp x (by simp [hx]))]
  have hne : (pre ++ bad :: post).length ≠ 0 := by simp
  unfold execute_map_reduce
  rw [if_neg hne]
  exact key pre hpre

/-- Witness for C9: items `[1, 2, 9, 3]` where `9` fails; the result is the
mapped prefix `[11, 12]`. -/
theorem worker_failure_partial_results_witness :
    execute_map_reduce
      (fun (n : Nat) (c : Nat) =>
        if n = 9 then (Except.error () : Except Unit Nat)
        else Except.ok (n + c))
      [1, 2, 9, 3] 10 = [11, 12] :=
  worker_failure_partial_results
    (fun (n : Nat) (c : Nat) =>
      if n = 9 then (Except.error () : Except Unit Nat)
      else Except.ok (n + c))
    10 [1, 2] [3] 9 (fun n => n + 10) ()
    (by intro x hx; fin_cases hx <;> rfl) rfl

/-! ## Theorems: closure invariant (C3) and focus boundary cases (C5) -/

theorem mem_filter_endpoints {l : List Edge} {ns : List String} {e : Edge}
    (he : e ∈ l.filter (fun e => decide (e.1 ∈ ns) && decide (e.2 ∈ ns))) :
    e.1 ∈ ns ∧ e.2 ∈ ns := by
  have h := List.mem_filter.mp he
  simpa using h.2

theorem mem_filter_endpoints_sem {l : List SEdge} {ns : List String}
    {s : SEdge}
    (hs : s ∈ l.filter (fun s => decide (s.1 ∈ ns) && decide (s.2.1 ∈ ns))) :
    s.1 ∈ ns ∧ s.2.1 ∈ ns := by
  have h := List.mem_filter.mp hs
  simpa using h.2

/-- C3.  Closure invariant: for every input to the graph assembler, every
call edge and every semantic edge of the returned graph data has both
endpoints in the returned node set; and the focus filtering step itself
returns an edge set whose endpoints all lie in its returned node set
(given, as in the assembler, a call-edge list whose endpoints are nodes). -/
theorem closure_invariant (call_graph : List Edge)
    (all_components : List String) (show_internal_calls : Bool)
    (exclude_patterns : List String) (focus_config : Option FocusConfig)
    (semantic_edges : List SEdge) (all_nodes : List String)
    (all_edges : List Edge) (cfg : FocusConfig) (d : Nat)
    (hclosed : ∀ e ∈ all_edges, e.1 ∈ all_nodes ∧ e.2 ∈ all_nodes) :
    (∀ e ∈ (build_component_graph_data call_graph all_components
        show_internal_calls exclude_patterns focus_config
        semantic_edges).edges,
      e.1 ∈ (build_component_graph_data call_graph all_components
        show_internal_calls exclude_patterns focus_config
        semantic_edges).nodes ∧
      e.2 ∈ (build_component_graph_data call_graph all_components
        show_internal_calls exclude_patterns focus_config
        semantic_edges).nodes) ∧
    (∀ s ∈ (build_component_graph_data call_graph all_components
        show_internal_calls exclude_patterns focus_config
        semantic_edges).semantic_edges,
      s.1 ∈ (build_component_graph_data call_graph all_components
        show_internal_calls exclude_patterns focus_config
        semantic_edges).nodes ∧
      s.2.1 ∈ (build_component_graph_data call_graph all_components
        show_internal_calls exclude_patterns focus_config
        semantic_edges).nodes) ∧
    (∀ e ∈ (perform_focus_analysis all_nodes all_edges cfg d).2,
      e.1 ∈ (perform_focus_analysis all_nodes all_edges cfg d).1 ∧
      e.2 ∈ (perform_focus_analysis all_nodes all_edges cfg d).1) := by
  refine ⟨?_, ?_, ?_⟩
  · intro e he
    exact mem_filter_endpoints he
  · intro s hs
    exact mem_filter_endpoints_sem hs
  · by_cases hE : cfg.entrypoints = []
    · intro e he
      simp only [perform_focus_analysis, if_pos hE] at he ⊢
      exact hclosed e he
    · intro e he
      simp only [perform_focus_analysis, if_neg hE] at he ⊢
      exact mem_filter_endpoints he

/-- Witness for C3 on a concrete assembler input and focus input. -/
theorem closure_invariant_witness :
    ("b" ∈ (build_component_graph_data [("a", "b")] [] true [] none
      []).nodes) ∧
    (("a", "b")).1 ∈ (perform_focus_analysis ["a", "b"] [("a", "b")]
      { entrypoints := ["a"] } 1).1 := by
  have h := closure_invariant [("a", "b")] [] true [] none [] ["a", "b"]
    [("a", "b")] { entrypoints := ["a"] } 1 (by decide)
  refine ⟨(h.1 ("a", "b") (by decide)).2, (h.2.2 ("a", "b") (by decide)).1⟩

/-- Any dequeue whose recorded depth is at least the depth bound is skipped;
in particular a queue all of whose entries are at depth `≥ maxD` leaves the
visited set unchanged. -/
theorem bfsAux_dropAll (adj : String → List String) (maxD : Nat) :
    ∀ (fuel : Nat) (q : List (String × Nat)) (visited : List String),
    (∀ x ∈ q, maxD ≤ x.2) → q.length < fuel →
    bfsAux adj maxD fuel q visited = visited := by
  intro fuel
  induction fuel with
  | zero => intro q v _ h; omega
  | succ n ih =>
    intro q v hq hlen
    match q with
    | [] => rfl
    | (node, depth) :: rest =>
      have hd : maxD ≤ depth := hq (node, depth) (by simp)
      simp only [bfsAux, if_pos hd]
      exact ih rest v (fun x hx => hq x (by simp [hx]))
        (by simp at hlen ⊢; omega)

/-- With depth bound `0` the BFS returns its seeds unchanged. -/
theorem bfsVisited_zero (adj : String → List String) (seeds : List String)
    (fuel : Nat) (h : seeds.length < fuel) :
    bfsVisited adj 0 seeds fuel = seeds := by
  unfold bfsVisited
  apply bfsAux_dropAll
  · intro x hx
    exact Nat.zero_le _
  · simpa using h

/-- C5.  Focus boundary cases: an empty entry-point set makes
`_perform_focus_analysis` the identity on `(nodes, edges)`; with a non-empty
entry-point set and depth `0`, the returned node set is exactly the entry
points present in the graph, with no expansion in either direction. -/
theorem focus_boundary_cases (all_nodes : List String)
    (all_edges : List Edge) (cfg : FocusConfig) (d : Nat) :
    (cfg.entrypoints = [] →
      perform_focus_analysis all_nodes all_edges cfg d =
        (all_nodes, all_edges)) ∧
    (cfg.entrypoints ≠ [] →
      ∀ n, n ∈ (perform_focus_analysis all_nodes all_edges cfg 0).1 ↔
        (n ∈ cfg.entrypoints ∧ n ∈ all_nodes)) := by
  constructor
  · intro h
    simp [perform_focus_analysis, h]
  · intro h n
    have hlen : ∀ s : List String,
        s.length < s.length + all_edges.length + 1 := by omega
    simp only [perform_focus_analysis, if_neg h]
    split_ifs with h1 h2 h2 <;>
      simp [bfsVisited_zero _ _ _ (hlen _), entrySeeds, List.mem_dedup,
        List.mem_filter]

/-- Witness for C5: an empty entry-point set is a no-op; with entry points
`["A", "X"]` at depth 0 on the graph `A → B`, only `A` is kept. -/
theorem focus_boundary_cases_witness :
    (perform_focus_analysis ["A", "B"] [("A", "B")]
      { entrypoints := [] } 3 = (["A", "B"], [("A", "B")])) ∧
    ("A" ∈ (perform_focus_analysis ["A", "B"] [("A", "B")]
      { entrypoints := ["A", "X"] } 0).1) ∧
    ("B" ∉ (perform_focus_analysis ["A", "B"] [("A", "B")]
      { entrypoints := ["A", "X"] } 0).1) ∧
    ("X" ∉ (perform_focus_analysis ["A", "B"] [("A", "B")]
      { entrypoints := ["A", "X"] } 0).1) := by
  have hA := (focus_boundary_cases ["A", "B"] [("A", "B")]
    { entrypoints := ["A", "X"] } 0).2 (by decide)
  refine ⟨(focus_boundary_cases ["A", "B"] [("A", "B")]
      { entrypoints := [] } 3).1 rfl,
    (hA "A").mpr (by decide),
    fun hmem => absurd ((hA "B").mp hmem) (by decide),
    fun hmem => absurd ((hA "X").mp hmem) (by decide)⟩

/-! ## BFS layer decomposition

The queue-based loop `bfsAux` is proved equal to the layer-synchronous
`levelLoop2`, which in turn computes the depth-bounded reachability closure
`reachN`.  The fuel accounting rests on the observation that every enqueue
beyond the seeds adds a distinct new node (an element of the adjacency
range) to `visited`. -/

theorem mem_freshOf : ∀ (ns visited : List String) (x : String),
    x ∈ freshOf visited ns → x ∈ ns ∧ x ∉ visited := by
  intro ns
  induction ns with
  | nil => intro visited x hx; simp [freshOf] at hx
  | cons n tl ih =>
    intro visited x hx
    by_cases hn : n ∈ visited
    · simp only [freshOf, if_pos hn] at hx
      have := ih visited x hx
      exact ⟨by simp [this.1], this.2⟩
    · simp only [freshOf, if_neg hn] at hx
      rcases List.mem_cons.mp hx with rfl | hx
      · exact ⟨by simp, hn⟩
      · have := ih (visited ++ [n]) x hx
        refine ⟨by simp [this.1], fun hv => this.2 (by simp [hv])⟩

theorem nodup_freshOf : ∀ (ns visited : List String),
    (freshOf visited ns).Nodup := by
  intro ns
  induction ns with
  | nil => intro visited; simp [freshOf]
  | cons n tl ih =>
    intro visited
    by_cases hn : n ∈ visited
    · simp only [freshOf, if_pos hn]
      exact ih visited
    · simp only [freshOf, if_neg hn]
      refine List.nodup_cons.mpr ⟨fun hmem => ?_, ih (visited ++ [n])⟩
      exact (mem_freshOf tl (visited ++ [n]) n hmem).2 (by simp)

theorem toFinset_append_freshOf : ∀ (ns visited : List String),
    (visited ++ freshOf visited ns).toFinset =
      visited.toFinset ∪ ns.toFinset := by
  intro ns
  induction ns with
  | nil => intro visited; simp [freshOf]
  | cons n tl ih =>
    intro visited
    by_cases hn : n ∈ visited
    · simp only [freshOf, if_pos hn]
      rw [ih visited]
      ext x
      simp only [Finset.mem_union, List.mem_toFinset, List.mem_cons]
      by_cases hx : x = n
      · subst hx; simp [hn]
      · tauto
    · simp only [freshOf, if_neg hn]
      have h := ih (visited ++ [n])
      have hperm :
          (visited ++ n :: freshOf (visited ++ [n]) tl).toFinset =
          ((visited ++ [n]) ++ freshOf (visited ++ [n]) tl).toFinset := by
        ext x; simp
      rw [hperm, h]
      ext x; simp; tauto

theorem toFinset_freshOf : ∀ (ns visited : List String),
    (freshOf visited ns).toFinset = ns.toFinset \ visited.toFinset := by
  intro ns
  induction ns with
  | nil => intro visited; simp [freshOf]
  | cons n tl ih =>
    intro visited
    by_cases hn : n ∈ visited
    · simp only [freshOf, if_pos hn]
      rw [ih visited]
      ext x
      simp only [Finset.mem_sdiff, List.mem_toFinset, List.mem_cons]
      by_cases hx : x = n
      · subst hx; simp [hn]
      · tauto
    · simp only [freshOf, if_neg hn]
      have h := Finset.ext_iff.mp (ih (visited ++ [n]))
      ext x
      have hx := h x
      simp only [List.mem_toFinset, Finset.mem_sdiff, List.mem_append,
        List.mem_singleton] at hx
      simp only [List.toFinset_cons, Finset.mem_insert, List.mem_toFinset,
        Finset.mem_sdiff, List.mem_cons]
      by_cases hxn : x = n
      · subst hxn; simp [hn]
      · rw [hx]; tauto

theorem nodup_append_freshOf : ∀ (ns visited : List String),
    visited.Nodup → (visited ++ freshOf visited ns).Nodup := by
  intro ns
  induction ns with
  | nil => intro visited h; simpa [freshOf] using h
  | cons n tl ih =>
    intro visited h
    by_cases hn : n ∈ visited
    · simp only [freshOf, if_pos hn]
      exact ih visited h
    · simp only [freshOf, if_neg hn]
      have key := ih (visited ++ [n])
        (by simp [List.nodup_append, h, hn])
      have : visited ++ n :: freshOf (visited ++ [n]) tl =
          (visited ++ [n]) ++ freshOf (visited ++ [n]) tl := by
        simp
      rw [this]
      exact key

theorem scanNeighbors_eq : ∀ (ns visited : List String)
    (queue : List (String × Nat)) (d1 : Nat),
    scanNeighbors visited queue d1 ns =
      (visited ++ freshOf visited ns,
       queue ++ (freshOf visited ns).map (fun x => (x, d1))) := by
  intro ns
  induction ns with
  | nil => intro visited queue d1; simp [scanNeighbors, freshOf]
  | cons n tl ih =>
    intro visited queue d1
    by_cases hn : n ∈ visited
    · simp only [scanNeighbors, freshOf, if_pos hn]
      exact ih visited queue d1
    · simp only [scanNeighbors, freshOf, if_neg hn]
      rw [ih (visited ++ [n]) (queue ++ [(n, d1)]) d1]
      simp

theorem pool_drop (U visited f : List String)
    (hfU : ∀ x ∈ f, x ∈ U) (hfv : ∀ x ∈ f, x ∉ visited)
    (hf : f.Nodup) :
    (U.toFinset \ (visited ++ f).toFinset).card + f.length =
      (U.toFinset \ visited.toFinset).card := by
  have hsub : f.toFinset ⊆ U.toFinset \ visited.toFinset := by
    intro x hx
    simp only [List.mem_toFinset] at hx
    simp only [Finset.mem_sdiff, List.mem_toFinset]
    exact ⟨hfU x hx, hfv x hx⟩
  have hsd : U.toFinset \ (visited ++ f).toFinset =
      (U.toFinset \ visited.toFinset) \ f.toFinset := by
    ext x; simp; tauto
  rw [hsd, Finset.card_sdiff hsub, List.toFinset_card_of_nodup hf]
  have hle : f.toFinset.card ≤ (U.toFinset \ visited.toFinset).card :=
    Finset.card_le_card hsub
  rw [List.toFinset_card_of_nodup hf] at hle
  omega

theorem expandNodes_fst_toFinset (adj : String → List String) :
    ∀ (front visited nexts : List String),
    ((expandNodes adj visited nexts front).1).toFinset =
      visited.toFinset ∪ nbrsFin adj front.toFinset := by
  intro front
  induction front with
  | nil => intro visited nexts; simp [expandNodes, nbrsFin]
  | cons n rest ih =>
    intro visited nexts
    simp only [expandNodes]
    rw [ih, toFinset_append_freshOf]
    simp only [List.toFinset_cons, nbrsFin, Finset.biUnion_insert]
    rw [Finset.union_assoc]

theorem expandNodes_snd_toFinset (adj : String → List String) :
    ∀ (front visited nexts : List String),
    ((expandNodes adj visited nexts front).2).toFinset =
      nexts.toFinset ∪ (nbrsFin adj front.toFinset \ visited.toFinset) := by
  intro front
  induction front with
  | nil => intro visited nexts; simp [expandNodes, nbrsFin]
  | cons n rest ih =>
    intro visited nexts
    simp only [expandNodes]
    rw [ih, List.toFinset_append, toFinset_freshOf, toFinset_append_freshOf]
    simp only [List.toFinset_cons, nbrsFin, Finset.biUnion_insert]
    ext x
    simp only [Finset.mem_union, Finset.mem_sdiff, List.mem_toFinset,
      Finset.mem_biUnion]
    tauto

theorem expandNodes_fst_nodup (adj : String → List String) :
    ∀ (front visited nexts : List String), visited.Nodup →
    ((expandNodes adj visited nexts front).1).Nodup := by
  intro front
  induction front with
  | nil => intro visited nexts h; exact h
  | cons n rest ih =>
    intro visited nexts h
    simp only [expandNodes]
    exact ih _ _ (nodup_append_freshOf (adj n) visited h)

theorem nbrsFin_mono (adj : String → List String) {S T : Finset String}
    (h : S ⊆ T) : nbrsFin adj S ⊆ nbrsFin adj T :=
  Finset.biUnion_subset_biUnion_of_subset_left _ h

theorem nbrsFin_union (adj : String → List String) (S T : Finset String) :
    nbrsFin adj (S ∪ T) = nbrsFin adj S ∪ nbrsFin adj T := by
  ext x
  simp only [nbrsFin, Finset.mem_biUnion, Finset.mem_union]
  constructor
  · rintro ⟨a, ha | ha, hx⟩
    · exact Or.inl ⟨a, ha, hx⟩
    · exact Or.inr ⟨a, ha, hx⟩
  · rintro (⟨a, ha, hx⟩ | ⟨a, ha, hx⟩)
    · exact ⟨a, Or.inl ha, hx⟩
    · exact ⟨a, Or.inr ha, hx⟩

theorem reachN_succ_comm (adj : String → List String) (S : Finset String) :
    ∀ b, reachN adj (S ∪ nbrsFin adj S) b = reachN adj S (b + 1) := by
  intro b
  induction b with
  | zero => simp [reachN]
  | succ b ih => simp only [reachN, ih]

theorem reachN_mono_depth (adj : String → List String) (S : Finset String)
    {b b' : Nat} (h : b ≤ b') : reachN adj S b ⊆ reachN adj S b' := by
  induction h with
  | refl => exact Finset.Subset.refl _
  | step h ih =>
    exact ih.trans (by simp only [reachN]; exact Finset.subset_union_left)

theorem reachN_mono_seed (adj : String → List String) {S T : Finset String}
    (h : S ⊆ T) : ∀ b, reachN adj S b ⊆ reachN adj T b := by
  intro b
  induction b with
  | zero => exact h
  | succ b ih =>
    simp only [reachN]
    exact Finset.union_subset_union ih (nbrsFin_mono adj ih)

theorem levelLoop2_cons (adj : String → List String) (b : Nat)
    (n : String) (rest frontB visited : List String) :
    levelLoop2 adj (b + 1) (n :: rest) frontB visited =
      levelLoop2 adj (b + 1) rest (frontB ++ freshOf visited (adj n))
        (visited ++ freshOf visited (adj n)) := by
  simp only [levelLoop2, expandNodes]

theorem levelLoop2_nil_shift (adj : String → List String) (b : Nat)
    (frontB visited : List String) :
    levelLoop2 adj (b + 1) [] frontB visited =
      levelLoop2 adj b frontB [] visited := by
  simp only [levelLoop2, expandNodes]

/-- The queue-based BFS loop equals the layer-synchronous loop.  The queue
holds the tail of the current layer (`frontA`, at depth `maxD - b`) followed
by the discovered part of the next layer (`frontB`); `fuel` dominates the
number of remaining dequeues: the pending entries plus the adjacency-range
nodes not yet visited. -/
theorem bfsAux_eq_levelLoop2 (adj : String → List String) (U : List String)
    (hU : ∀ n x, x ∈ adj n → x ∈ U) (maxD : Nat) :
    ∀ (b : Nat) (frontA frontB visited : List String) (fuel : Nat),
    b ≤ maxD →
    frontA.length + frontB.length +
      (U.toFinset \ visited.toFinset).card < fuel →
    bfsAux adj maxD fuel
      (frontA.map (fun x => (x, maxD - b)) ++
       frontB.map (fun x => (x, maxD - b + 1))) visited =
    levelLoop2 adj b frontA frontB visited := by
  intro b
  induction b with
  | zero =>
    intro frontA frontB visited fuel _ hfuel
    simp only [levelLoop2]
    apply bfsAux_dropAll
    · intro x hx
      simp only [List.mem_append, List.mem_map] at hx
      rcases hx with ⟨a, _, rfl⟩ | ⟨a, _, rfl⟩
      · show maxD ≤ maxD - 0
        omega
      · show maxD ≤ maxD - 0 + 1
        omega
    · simp only [List.length_append, List.length_map]
      omega
  | succ b ihb =>
    intro frontA
    induction frontA with
    | nil =>
      intro frontB visited fuel hb hfuel
      rw [levelLoop2_nil_shift]
      have harith : maxD - (b + 1) + 1 = maxD - b := by omega
      have h := ihb frontB [] visited fuel (by omega)
        (by simp only [List.length_nil] at hfuel ⊢; omega)
      simp only [List.map_nil, List.nil_append, harith]
      simpa using h
    | cons n rest ih =>
      intro frontB visited fuel hb hfuel
      cases fuel with
      | zero => omega
      | succ fuel =>
        have hlt : ¬ (maxD ≤ maxD - (b + 1)) := by omega
        simp only [List.map_cons, List.cons_append, bfsAux, if_neg hlt]
        rw [scanNeighbors_eq]
        rw [levelLoop2_cons]
        have hfresh := mem_freshOf (adj n) visited
        have hpool := pool_drop U visited (freshOf visited (adj n))
          (fun x hx => hU n x (hfresh x hx).1)
          (fun x hx => (hfresh x hx).2)
          (nodup_freshOf (adj n) visited)
        have hfuel2 : rest.length +
            (frontB ++ freshOf visited (adj n)).length +
            (U.toFinset \
              (visited ++ freshOf visited (adj n)).toFinset).card < fuel := by
          simp only [List.length_append, List.length_cons] at hfuel ⊢
          omega
        have h := ih (frontB ++ freshOf visited (adj n))
          (visited ++ freshOf visited (adj n)) fuel hb hfuel2
        rw [← h]
        simp [List.append_assoc]

/-- The layer-synchronous loop computes the depth-bounded reachability
closure of its visited set, and keeps it duplicate-free.  Invariants: the
current frontier lies inside the visited set, and every already-expanded
node (visited minus frontier) has all its neighbours visited. -/
theorem levelLoop2_reach (adj : String → List String) :
    ∀ (b : Nat) (front visited : List String),
    visited.Nodup →
    front.toFinset ⊆ visited.toFinset →
    nbrsFin adj (visited.toFinset \ front.toFinset) ⊆ visited.toFinset →
    (levelLoop2 adj b front [] visited).toFinset =
      reachN adj visited.toFinset b ∧
    (levelLoop2 adj b front [] visited).Nodup := by
  intro b
  induction b with
  | zero => intro front visited h _ _; exact ⟨rfl, h⟩
  | succ b ih =>
    intro front visited hnd hsub hclosed
    simp only [levelLoop2]
    have h1 := expandNodes_fst_toFinset adj front visited []
    have h2 : ((expandNodes adj visited [] front).2).toFinset =
        nbrsFin adj front.toFinset \ visited.toFinset := by
      rw [expandNodes_snd_toFinset]; simp
    have hnd1 : ((expandNodes adj visited [] front).1).Nodup :=
      expandNodes_fst_nodup adj front visited [] hnd
    have hVN : visited.toFinset ∪ nbrsFin adj visited.toFinset =
        visited.toFinset ∪ nbrsFin adj front.toFinset := by
      have hnv : nbrsFin adj visited.toFinset =
          nbrsFin adj (visited.toFinset \ front.toFinset) ∪
            nbrsFin adj front.toFinset := by
        rw [← nbrsFin_union, Finset.sdiff_union_of_subset hsub]
      apply Finset.Subset.antisymm
      · apply Finset.union_subset Finset.subset_union_left
        rw [hnv]
        apply Finset.union_subset
        · exact (hclosed.trans Finset.subset_union_left)
        · exact Finset.subset_union_right
      · apply Finset.union_subset Finset.subset_union_left
        exact (nbrsFin_mono adj hsub).trans Finset.subset_union_right
    have hinv2 : ((expandNodes adj visited [] front).2).toFinset ⊆
        ((expandNodes adj visited [] front).1).toFinset := by
      rw [h1, h2]
      exact (Finset.sdiff_subset).trans Finset.subset_union_right
    have hinv3 : nbrsFin adj (((expandNodes adj visited [] front).1).toFinset \
        ((expandNodes adj visited [] front).2).toFinset) ⊆
        ((expandNodes adj visited [] front).1).toFinset := by
      have hdiff : ((expandNodes adj visited [] front).1).toFinset \
          ((expandNodes adj visited [] front).2).toFinset =
          visited.toFinset := by
        rw [h1, h2]
        ext x
        simp only [Finset.mem_sdiff, Finset.mem_union]
        tauto
      rw [hdiff, h1, ← hVN]
      exact Finset.subset_union_right
    obtain ⟨hr, hn⟩ := ih (expandNodes adj visited [] front).2
      (expandNodes adj visited [] front).1 hnd1 hinv2 hinv3
    refine ⟨?_, hn⟩
    rw [hr, h1, ← hVN, reachN_succ_comm]

/-- The BFS of `_perform_focus_analysis` computes exactly the depth-bounded
reachability closure of its seeds, with no duplicates, whenever the fuel
exceeds `seeds.length + U.length` for `U` a list covering the adjacency
range. -/
theorem bfsVisited_reach (adj : String → List String) (U : List String)
    (hU : ∀ n x, x ∈ adj n → x ∈ U) (maxD : Nat) (seeds : List String)
    (fuel : Nat) (hnd : seeds.Nodup)
    (hfuel : seeds.length + U.length < fuel) :
    (bfsVisited adj maxD seeds fuel).toFinset =
      reachN adj seeds.toFinset maxD ∧
    (bfsVisited adj maxD seeds fuel).Nodup := by
  have hcard : (U.toFinset \ seeds.toFinset).card ≤ U.length := by
    calc (U.toFinset \ seeds.toFinset).card
        ≤ U.toFinset.card := Finset.card_le_card Finset.sdiff_subset
      _ ≤ U.length := List.toFinset_card_le U
  have hmix := bfsAux_eq_levelLoop2 adj U hU maxD maxD seeds [] seeds fuel
    le_rfl (by simp only [List.length_nil]; omega)
  have hq : bfsVisited adj maxD seeds fuel =
      levelLoop2 adj maxD seeds [] seeds := by
    unfold bfsVisited
    rw [← hmix]
    simp [Nat.sub_self]
  rw [hq]
  apply levelLoop2_reach adj maxD seeds seeds hnd (Finset.Subset.refl _)
  simp [nbrsFin]

/-! ## Direction-wise characterization of `_perform_focus_analysis` -/

theorem successorsOf_range (all_edges : List Edge) :
    ∀ n x, x ∈ successorsOf all_edges n →
      x ∈ all_edges.map (fun e => e.2) := by
  intro n x hx
  simp only [successorsOf, List.mem_map, List.mem_filter] at hx
  obtain ⟨e, ⟨he, _⟩, rfl⟩ := hx
  exact List.mem_map_of_mem _ he

theorem predecessorsOf_range (all_edges : List Edge) :
    ∀ n x, x ∈ predecessorsOf all_edges n →
      x ∈ all_edges.map (fun e => e.1) := by
  intro n x hx
  simp only [predecessorsOf, List.mem_map, List.mem_filter] at hx
  obtain ⟨e, ⟨he, _⟩, rfl⟩ := hx
  exact List.mem_map_of_mem _ he

theorem entrySeeds_nodup (cfg : FocusConfig) (all_nodes : List String) :
    (entrySeeds cfg all_nodes).Nodup :=
  List.nodup_dedup _

theorem bfs_phase_reach (adj : String → List String) (U : List String)
    (hU : ∀ n x, x ∈ adj n → x ∈ U) (d : Nat) (seeds : List String)
    (extra : Nat) (hnd : seeds.Nodup) (hextra : U.length ≤ extra) :
    (bfsVisited adj d seeds (seeds.length + extra + 1)).toFinset =
      reachN adj seeds.toFinset d ∧
    (bfsVisited adj d seeds (seeds.length + extra + 1)).Nodup :=
  bfsVisited_reach adj U hU d seeds _ hnd (by omega)

/-- `direction = "downstream"`: the focused node set is exactly the
depth-bounded successor closure of the entry points. -/
theorem perform_downstream_char (all_nodes : List String)
    (all_edges : List Edge) (cfg : FocusConfig) (d : Nat)
    (hE : cfg.entrypoints ≠ []) (hdir : cfg.direction = "downstream") :
    (perform_focus_analysis all_nodes all_edges cfg d).1.toFinset =
      reachN (successorsOf all_edges)
        (entrySeeds cfg all_nodes).toFinset d ∧
    (perform_focus_analysis all_nodes all_edges cfg d).1.Nodup := by
  have hb := bfs_phase_reach (successorsOf all_edges)
    (all_edges.map (fun e => e.2)) (successorsOf_range all_edges) d
    (entrySeeds cfg all_nodes) all_edges.length
    (entrySeeds_nodup cfg all_nodes) (by simp)
  simp only [perform_focus_analysis, if_neg hE, hdir]
  rw [if_neg (by decide), if_pos (by simp)]
  exact hb

/-- `direction = "upstream"`: the focused node set is exactly the
depth-bounded predecessor closure of the entry points. -/
theorem perform_upstream_char (all_nodes : List String)
    (all_edges : List Edge) (cfg : FocusConfig) (d : Nat)
    (hE : cfg.entrypoints ≠ []) (hdir : cfg.direction = "upstream") :
    (perform_focus_analysis all_nodes all_edges cfg d).1.toFinset =
      reachN (predecessorsOf all_edges)
        (entrySeeds cfg all_nodes).toFinset d ∧
    (perform_focus_analysis all_nodes all_edges cfg d).1.Nodup := by
  have hb := bfs_phase_reach (predecessorsOf all_edges)
    (all_edges.map (fun e => e.1)) (predecessorsOf_range all_edges) d
    (entrySeeds cfg all_nodes) all_edges.length
    (entrySeeds_nodup cfg all_nodes) (by simp)
  simp only [perform_focus_analysis, if_neg hE, hdir]
  rw [if_pos (by simp), if_neg (by decide)]
  exact hb

/-- `direction = "both"`: the upstream expansion is seeded with the entire
downstream result, so the focused node set is the predecessor closure of the
successor closure. -/
theorem perform_both_char (all_nodes : List String) (all_edges : List Edge)
    (cfg : FocusConfig) (d : Nat) (hE : cfg.entrypoints ≠ [])
    (hdir : cfg.direction = "both") :
    (perform_focus_analysis all_nodes all_edges cfg d).1.toFinset =
      reachN (predecessorsOf all_edges)
        (reachN (successorsOf all_edges)
          (entrySeeds cfg all_nodes).toFinset d) d ∧
    (perform_focus_analysis all_nodes all_edges cfg d).1.Nodup := by
  have hdown := bfs_phase_reach (successorsOf all_edges)
    (all_edges.map (fun e => e.2)) (successorsOf_range all_edges) d
    (entrySeeds cfg all_nodes) all_edges.length
    (entrySeeds_nodup cfg all_nodes) (by simp)
  have hup := bfs_phase_reach (predecessorsOf all_edges)
    (all_edges.map (fun e => e.1)) (predecessorsOf_range all_edges) d
    (bfsVisited (successorsOf all_edges) d (entrySeeds cfg all_nodes)
      ((entrySeeds cfg all_nodes).length + all_edges.length + 1))
    all_edges.length hdown.2 (by simp)
  simp only [perform_focus_analysis, if_neg hE, hdir]
  rw [if_pos (by simp), if_pos (by simp)]
  rw [hup.1, hdown.1]
  exact ⟨rfl, hup.2⟩

/-- Any other `direction` string expands in neither direction: the focused
node set is just the seeded entry points. -/
theorem perform_other_char (all_nodes : List String) (all_edges : List Edge)
    (cfg : FocusConfig) (d : Nat) (hE : cfg.entrypoints ≠ [])
    (h1 : cfg.direction ≠ "both") (h2 : cfg.direction ≠ "downstream")
    (h3 : cfg.direction ≠ "upstream") :
    (perform_focus_analysis all_nodes all_edges cfg d).1 =
      entrySeeds cfg all_nodes := by
  simp only [perform_focus_analysis, if_neg hE]
  rw [if_neg (by simp [h1, h3]), if_neg (by simp [h1, h2])]

theorem length_le_of_nodup_subset {l l' : List String} (h1 : l.Nodup)
    (h2 : l'.Nodup) (h : l.toFinset ⊆ l'.toFinset) :
    l.length ≤ l'.length := by
  rw [← List.toFinset_card_of_nodup h1, ← List.toFinset_card_of_nodup h2]
  exact Finset.card_le_card h

/-! ## Theorems: depth monotonicity (C6), bidirectional seeding (C10),
semantic edges and focus adjacency (C4) -/

/-- C6.  Depth monotonicity: for every graph, entry-point set, and fixed
direction, the node set returned by a single focus computation at depth `d`
is contained in the one at any depth `d' ≥ d`, and the returned node count
is non-decreasing in the depth. -/
theorem depth_monotonicity (all_nodes : List String) (all_edges : List Edge)
    (cfg : FocusConfig) (d d' : Nat) (h : d ≤ d') :
    (∀ n, n ∈ (perform_focus_analysis all_nodes all_edges cfg d).1 →
      n ∈ (perform_focus_analysis all_nodes all_edges cfg d').1) ∧
    (perform_focus_analysis all_nodes all_edges cfg d).1.length ≤
      (perform_focus_analysis all_nodes all_edges cfg d').1.length := by
  by_cases hE : cfg.entrypoints = []
  · rw [(focus_boundary_cases all_nodes all_edges cfg d).1 hE,
      (focus_boundary_cases all_nodes all_edges cfg d').1 hE]
    exact ⟨fun n hn => hn, le_rfl⟩
  · have key : ((perform_focus_analysis all_nodes all_edges cfg d).1.toFinset ⊆
        (perform_focus_analysis all_nodes all_edges cfg d').1.toFinset ∧
        (perform_focus_analysis all_nodes all_edges cfg d).1.Nodup ∧
        (perform_focus_analysis all_nodes all_edges cfg d').1.Nodup) ∨
        (perform_focus_analysis all_nodes all_edges cfg d).1 =
          (perform_focus_analysis all_nodes all_edges cfg d').1 := by
      by_cases hb : cfg.direction = "both"
      · left
        obtain ⟨e1, n1⟩ := perform_both_char all_nodes all_edges cfg d hE hb
        obtain ⟨e2, n2⟩ := perform_both_char all_nodes all_edges cfg d' hE hb
        refine ⟨?_, n1, n2⟩
        rw [e1, e2]
        exact (reachN_mono_seed (predecessorsOf all_edges)
          (reachN_mono_depth (successorsOf all_edges) _ h) d).trans
          (reachN_mono_depth (predecessorsOf all_edges) _ h)
      · by_cases hdn : cfg.direction = "downstream"
        · left
          obtain ⟨e1, n1⟩ :=
            perform_downstream_char all_nodes all_edges cfg d hE hdn
          obtain ⟨e2, n2⟩ :=
            perform_downstream_char all_nodes all_edges cfg d' hE hdn
          refine ⟨?_, n1, n2⟩
          rw [e1, e2]
          exact reachN_mono_depth (successorsOf all_edges) _ h
        · by_cases hup : cfg.direction = "upstream"
          · left
            obtain ⟨e1, n1⟩ :=
              perform_upstream_char all_nodes all_edges cfg d hE hup
            obtain ⟨e2, n2⟩ :=
              perform_upstream_char all_nodes all_edges cfg d' hE hup
            refine ⟨?_, n1, n2⟩
            rw [e1, e2]
            exact reachN_mono_depth (predecessorsOf all_edges) _ h
          · right
            rw [perform_other_char all_nodes all_edges cfg d hE hb hdn hup,
              perform_other_char all_nodes all_edges cfg d' hE hb hdn hup]
    rcases key with ⟨hsub, n1, n2⟩ | heq
    · exact ⟨fun n hn =>
        List.mem_toFinset.mp (hsub (List.mem_toFinset.mpr hn)),
        length_le_of_nodup_subset n1 n2 hsub⟩
    · rw [heq]
      exact ⟨fun n hn => hn, le_rfl⟩

/-- Witness for C6: chain `A → B → C`, downstream focus on `A`, depths 1
and 2. -/
theorem depth_monotonicity_witness :
    ("B" ∈ (perform_focus_analysis ["A", "B", "C"] [("A", "B"), ("B", "C")]
      { entrypoints := ["A"], direction := "downstream" } 2).1) ∧
    ((perform_focus_analysis ["A", "B", "C"] [("A", "B"), ("B", "C")]
      { entrypoints := ["A"], direction := "downstream" } 1).1.length ≤
     (perform_focus_analysis ["A", "B", "C"] [("A", "B"), ("B", "C")]
      { entrypoints := ["A"], direction := "downstream" } 2).1.length) :=
  ⟨(depth_monotonicity ["A", "B", "C"] [("A", "B"), ("B", "C")]
      { entrypoints := ["A"], direction := "downstream" } 1 2
      (by omega)).1 "B" (by decide),
   (depth_monotonicity ["A", "B", "C"] [("A", "B"), ("B", "C")]
      { entrypoints := ["A"], direction := "downstream" } 1 2
      (by omega)).2⟩

/-- C10.  In `"both"` mode the upstream expansion is seeded with everything
the downstream expansion collected, so the result is the depth-bounded
predecessor closure of the depth-bounded successor closure of the entry
points; on the graph `A → B ← C` with entry `A` and depth 1 this strictly
exceeds the union of the two independent single-direction runs (it contains
`C`, which neither run reaches). -/
theorem both_direction_seeding (all_nodes : List String)
    (all_edges : List Edge) (cfg : FocusConfig) (d : Nat)
    (hE : cfg.entrypoints ≠ []) (hdir : cfg.direction = "both") :
    ((perform_focus_analysis all_nodes all_edges cfg d).1.toFinset =
      reachN (predecessorsOf all_edges)
        (reachN (successorsOf all_edges)
          (entrySeeds cfg all_nodes).toFinset d) d) ∧
    ("C" ∈ (perform_focus_analysis ["A", "B", "C"] [("A", "B"), ("C", "B")]
        { entrypoints := ["A"], direction := "both" } 1).1 ∧
     "C" ∉ (perform_focus_analysis ["A", "B", "C"] [("A", "B"), ("C", "B")]
        { entrypoints := ["A"], direction := "downstream" } 1).1 ∧
     "C" ∉ (perform_focus_analysis ["A", "B", "C"] [("A", "B"), ("C", "B")]
        { entrypoints := ["A"], direction := "upstream" } 1).1) :=
  ⟨(perform_both_char all_nodes all_edges cfg d hE hdir).1,
   by decide, by decide, by decide⟩

/-- Witness for C10 at the concrete graph `A → B ← C`. -/
theorem both_direction_seeding_witness :
    (perform_focus_analysis ["A", "B", "C"] [("A", "B"), ("C", "B")]
      { entrypoints := ["A"], direction := "both" } 1).1.toFinset =
      reachN (predecessorsOf [("A", "B"), ("C", "B")])
        (reachN (successorsOf [("A", "B"), ("C", "B")])
          (entrySeeds { entrypoints := ["A"], direction := "both" }
            ["A", "B", "C"]).toFinset 1) 1 :=
  (both_direction_seeding ["A", "B", "C"] [("A", "B"), ("C", "B")]
    { entrypoints := ["A"], direction := "both" } 1 (by decide) rfl).1

/-- C4 counterexample: with no call edges, the semantic edge
`A -depends_on-> B` and entry point `A` at depth 1, the focused node set is
just `["A"]` — the node `B`, reachable from `A` within the configured depth
via a semantic edge, is not included. -/
theorem focus_ignores_semantic_edges_cex :
    (build_component_graph_data [] [] true []
      (some { entrypoints := ["A"], direction := "downstream",
              enable_dynamic_depth := false, initial_depth := 1 })
      [("A", "B", "depends_on")]).nodes = ["A"] ∧
    "B" ∉ (build_component_graph_data [] [] true []
      (some { entrypoints := ["A"], direction := "downstream",
              enable_dynamic_depth := false, initial_depth := 1 })
      [("A", "B", "depends_on")]).nodes := by
  decide

/-- C4 amended: the focus computation builds its adjacency from the call
edges alone — the focused node set is exactly the depth-bounded call-edge
closure of the entry points, and semantic edges influence it only through
node existence (`initialNodesOf`), never through traversal. -/
theorem focus_adjacency_from_call_edges (call_graph : List Edge)
    (all_components : List String) (show_internal_calls : Bool)
    (semantic_edges : List SEdge) (cfg : FocusConfig)
    (hE : cfg.entrypoints ≠ []) (hdir : cfg.direction = "downstream")
    (hdyn : cfg.enable_dynamic_depth = false) :
    (build_component_graph_data call_graph all_components
      show_internal_calls [] (some cfg) semantic_edges).nodes.toFinset =
      reachN (successorsOf (componentEdgesOf call_graph show_internal_calls))
        (entrySeeds cfg (initialNodesOf
          (componentEdgesOf call_graph show_internal_calls) semantic_edges
          all_components)).toFinset cfg.initial_depth := by
  have hcfg : { cfg with direction := cfg.direction } = cfg := rfl
  have hchar := perform_downstream_char
    (initialNodesOf (componentEdgesOf call_graph show_internal_calls)
      semantic_edges all_components)
    (componentEdgesOf call_graph show_internal_calls) cfg cfg.initial_depth
    hE hdir
  simp only [build_component_graph_data, hdyn, if_neg hE, hcfg,
    Bool.false_eq_true, if_false, ne_eq, not_true_eq_false]
  rw [if_neg (by simp [hdir])]
  exact hchar.1

/-- Witness for the amended C4 statement on the concrete graph with call
edge `A → B` and semantic edge `A → C`. -/
theorem focus_adjacency_from_call_edges_witness :
    (build_component_graph_data [("A", "B")] [] true []
      (some { entrypoints := ["A"], direction := "downstream",
              enable_dynamic_depth := false, initial_depth := 1 })
      [("A", "C", "depends_on")]).nodes.toFinset =
      reachN (successorsOf (componentEdgesOf [("A", "B")] true))
        (entrySeeds
          { entrypoints := ["A"], direction := "downstream",
            enable_dynamic_depth := false, initial_depth := 1 }
          (initialNodesOf (componentEdgesOf [("A", "B")] true)
            [("A", "C", "depends_on")] [])).toFinset 1 :=
  focus_adjacency_from_call_edges [("A", "B")] [] true
    [("A", "C", "depends_on")]
    { entrypoints := ["A"], direction := "downstream",
      enable_dynamic_depth := false, initial_depth := 1 }
    (by decide) rfl rfl

/-! ## Theorems: recommendation list structure (C8) -/

/-- C8 counterexample: on a two-node graph whose nodes `m.a` and `m.b` share
the owning module `m` and both score positively, the offered recommendation
list contains both — no per-module deduplication takes place in
`InteractiveWizard.run`. -/
theorem per_module_dedup_cex :
    (("m.a", (2 : ℚ)) ∈ formRecommendations
      (sorted_candidates ["m.a", "m.b"] [("m.a", "m.b")] [] ["m"]
        (fun n => if n = "m.a" then 2 else 1)) []) ∧
    (("m.b", (1 : ℚ)) ∈ formRecommendations
      (sorted_candidates ["m.a", "m.b"] [("m.a", "m.b")] [] ["m"]
        (fun n => if n = "m.a" then 2 else 1)) []) ∧
    moduleOf "m.a" = moduleOf "m.b" ∧ "m.a" ≠ "m.b" := by
  decide

/-- C8 amended: the top-K list formed by `InteractiveWizard.run` is the
first five positive-score candidates that were not previously rejected, in
ranked order (a sublist of the ranked candidate list); candidates from the
same owning module are not deduplicated. -/
theorem recommendations_structure (sorted_cands : List (String × ℚ))
    (failed_attempts : List String) :
    (formRecommendations sorted_cands failed_attempts).length ≤ 5 ∧
    (formRecommendations sorted_cands failed_attempts).Sublist
      sorted_cands ∧
    ∀ c ∈ formRecommendations sorted_cands failed_attempts,
      0 < c.2 ∧ c.1 ∉ failed_attempts := by
  refine ⟨List.length_take_le _ _, ?_, ?_⟩
  · exact (List.take_sublist _ _).trans
      ((List.filter_sublist _).trans (List.filter_sublist _))
  · intro c hc
    have h1 := List.mem_of_mem_take hc
    have h2 := List.mem_filter.mp h1
    have h3 := List.mem_filter.mp h2.1
    exact ⟨by simpa using h2.2, by simpa using h3.2⟩

/-- Witness for the amended C8 statement. -/
theorem recommendations_structure_witness :
    (formRecommendations [("m.a", (2 : ℚ)), ("x.y", -1)] []).length ≤ 5 ∧
    (0 : ℚ) < 2 ∧ "m.a" ∉ ([] : List String) :=
  ⟨(recommendations_structure [("m.a", 2), ("x.y", -1)] []).1,
   (recommendations_structure [("m.a", 2), ("x.y", -1)] []).2.2
     ("m.a", 2) (by decide)⟩

/-! ## Theorems: ranking determinism and tie-break (C7)

The wizard adds nodes to the `networkx` graph in the order of
`graph_data["nodes"]` (which `build_component_graph_data` emits sorted by
FQN); with the closure invariant the edge insertions add no further nodes,
so `final_scores.items()` lists candidates in ascending FQN order, and the
stable descending sort on the score breaks ties by FQN. -/

theorem foldl_addGNode_fresh : ∀ (l acc : List String), acc.Nodup →
    l.Nodup → (∀ x ∈ l, x ∉ acc) → l.foldl addGNode acc = acc ++ l := by
  intro l
  induction l with
  | nil => intro acc _ _ _; simp
  | cons n t ih =>
    intro acc hacc hl hdisj
    have hn : n ∉ acc := hdisj n (by simp)
    have step : addGNode acc n = acc ++ [n] := by simp [addGNode, hn]
    simp only [List.foldl_cons, step]
    rw [ih (acc ++ [n])
      (by
        simp only [List.nodup_append, List.nodup_cons]
        exact ⟨hacc, by simp, by simpa using hn⟩)
      (List.nodup_cons.mp hl).2
      (fun x hx => by
        simp only [List.mem_append, List.mem_singleton]
        rintro (h | rfl)
        · exact hdisj x (by simp [hx]) h
        · exact (List.nodup_cons.mp hl).1 hx)]
    simp

theorem foldl_addEdges_fixed : ∀ (l : List Edge) (acc : List String),
    (∀ e ∈ l, e.1 ∈ acc ∧ e.2 ∈ acc) →
    l.foldl (fun a e => if e.1 ≠ e.2 then addGNode (addGNode a e.1) e.2
      else a) acc = acc := by
  intro l
  induction l with
  | nil => intro acc _; rfl
  | cons e t ih =>
    intro acc h
    have he := h e (by simp)
    have h1 : addGNode acc e.1 = acc := by simp [addGNode, he.1]
    have h2 : addGNode acc e.2 = acc := by simp [addGNode, he.2]
    simp only [List.foldl_cons]
    have hstep : (if e.1 ≠ e.2 then addGNode (addGNode acc e.1) e.2
        else acc) = acc := by
      split
      · rw [h1, h2]
      · rfl
    rw [hstep]
    exact ih acc (fun e' he' => h e' (by simp [he']))

theorem foldl_addSems_fixed : ∀ (l : List SEdge) (acc : List String),
    (∀ s ∈ l, s.1 ∈ acc ∧ s.2.1 ∈ acc) →
    l.foldl (fun a s => if s.1 ≠ s.2.1 then addGNode (addGNode a s.1) s.2.1
      else a) acc = acc := by
  intro l
  induction l with
  | nil => intro acc _; rfl
  | cons s t ih =>
    intro acc h
    have hs := h s (by simp)
    have h1 : addGNode acc s.1 = acc := by simp [addGNode, hs.1]
    have h2 : addGNode acc s.2.1 = acc := by simp [addGNode, hs.2]
    simp only [List.foldl_cons]
    have hstep : (if s.1 ≠ s.2.1 then addGNode (addGNode acc s.1) s.2.1
        else acc) = acc := by
      split
      · rw [h1, h2]
      · rfl
    rw [hstep]
    exact ih acc (fun s' hs' => h s' (by simp [hs']))

/-- Under the assembler's guarantees (duplicate-free node list, closed edge
sets) the wizard's graph has exactly the input nodes, in input order. -/
theorem graphNodes_eq (nodes : List String) (edges : List Edge)
    (semantic_edges : List SEdge) (hnd : nodes.Nodup)
    (hedge : ∀ e ∈ edges, e.1 ∈ nodes ∧ e.2 ∈ nodes)
    (hsem : ∀ s ∈ semantic_edges, s.1 ∈ nodes ∧ s.2.1 ∈ nodes) :
    graphNodes nodes edges semantic_edges = nodes := by
  have h0 : nodes.foldl addGNode [] = nodes := by
    simpa using foldl_addGNode_fresh nodes [] (by simp) hnd (by simp)
  simp only [graphNodes, h0]
  rw [foldl_addEdges_fixed edges nodes hedge,
    foldl_addSems_fixed semantic_edges nodes hsem]

theorem pair_sublist_of_get {α : Type} : ∀ (l : List α) (i j : Nat)
    (hi : i < l.length) (hj : j < l.length), i < j →
    ([l.get ⟨i, hi⟩, l.get ⟨j, hj⟩]).Sublist l := by
  intro l
  induction l with
  | nil => intro i j hi _ _; simp at hi
  | cons x t ih =>
    intro i j hi hj hij
    match i, j with
    | _, 0 => omega
    | 0, j + 1 =>
      exact List.Sublist.cons₂ x
        (List.singleton_sublist.mpr (t.get_mem _ _))
    | i + 1, j + 1 =>
      exact List.Sublist.cons x
        (ih i j (by simpa using hi) (by simpa using hj) (by omega))

theorem pair_sublist_of_pairwise {α : Type} {r : α → α → Prop}
    (hasymm : ∀ x y, r x y → ¬ r y x) :
    ∀ (l : List α) (a b : α), l.Pairwise r → a ∈ l → b ∈ l → r a b →
    ([a, b]).Sublist l := by
  intro l
  induction l with
  | nil => intro a b _ ha _ _; simp at ha
  | cons x t ih =>
    intro a b hp ha hb hab
    have hp' := List.pairwise_cons.mp hp
    rcases List.mem_cons.mp ha with rfl | hat
    · rcases List.mem_cons.mp hb with rfl | hbt
      · exact absurd hab (hasymm _ _ hab)
      · exact List.Sublist.cons₂ _ (List.singleton_sublist.mpr hbt)
    · rcases List.mem_cons.mp hb with rfl | hbt
      · exact absurd (hp'.1 a hat) (hasymm _ _ hab)
      · exact List.Sublist.cons x (ih a b hp'.2 hat hbt hab)

theorem pair_sublist_antisym {α : Type} : ∀ (l : List α) (a b : α),
    l.Nodup → a ≠ b → ([a, b]).Sublist l → ([b, a]).Sublist l → False := by
  intro l
  induction l with
  | nil => intro a b _ _ h1 _; simp at h1
  | cons x t ih =>
    intro a b hnd hne h1 h2
    have hx := List.nodup_cons.mp hnd
    cases h1 with
    | cons _ h1' =>
      cases h2 with
      | cons _ h2' => exact ih a b hx.2 hne h1' h2'
      | cons₂ _ h2' => exact hx.1 (h1'.subset (by simp))
    | cons₂ _ h1' =>
      cases h2 with
      | cons _ h2' => exact hx.1 (h2'.subset (by simp))
      | cons₂ _ h2' => exact hne rfl

/-- C7.  Ranking tie-break and determinism: given the node list in
ascending FQN order (as `build_component_graph_data` emits it) and the
closure invariant on the edge lists, the wizard's candidate list is a
permutation of the scored internal nodes ordered by score descending with
ties broken by ascending FQN; any list with those two properties is equal
to it, so identical graph and configuration determine one unique candidate
order across runs. -/
theorem ranking_deterministic (nodes : List String) (edges : List Edge)
    (semantic_edges : List SEdge) (context_packages : List String)
    (score : String → ℚ) (hsorted : nodes.Pairwise (· < ·))
    (hedge : ∀ e ∈ edges, e.1 ∈ nodes ∧ e.2 ∈ nodes)
    (hsem : ∀ s ∈ semantic_edges, s.1 ∈ nodes ∧ s.2.1 ∈ nodes) :
    ((sorted_candidates nodes edges semantic_edges context_packages
      score).Perm
      (candidateList nodes edges semantic_edges context_packages score)) ∧
    ((sorted_candidates nodes edges semantic_edges context_packages
      score).Pairwise
      (fun a b => b.2 < a.2 ∨ (a.2 = b.2 ∧ a.1 < b.1))) ∧
    (∀ other : List (String × ℚ),
      other.Perm (candidateList nodes edges semantic_edges
        context_packages score) →
      other.Pairwise (fun a b => b.2 < a.2 ∨ (a.2 = b.2 ∧ a.1 < b.1)) →
      other = sorted_candidates nodes edges semantic_edges
        context_packages score) := by
  set cand := candidateList nodes edges semantic_edges context_packages
    score with hcand
  set out := sorted_candidates nodes edges semantic_edges context_packages
    score with hout
  have hios : out = cand.insertionSort scoreDescLe := by
    rw [hout, hcand]; rfl
  have hnd : nodes.Nodup := hsorted.imp (fun h => ne_of_lt h)
  have hg : graphNodes nodes edges semantic_edges = nodes :=
    graphNodes_eq _ _ _ hnd hedge hsem
  have hcand_eq : cand = (nodes.filter (fun node =>
      context_packages.any (fun pkg => startsWith node pkg))).map
      (fun node => (node, score node)) := by
    rw [hcand]; unfold candidateList; rw [hg]
  have hcp : cand.Pairwise (fun a b => a.1 < b.1) := by
    rw [hcand_eq, List.pairwise_map]
    exact hsorted.filter _
  have hcnd : cand.Nodup :=
    hcp.imp (fun h he => absurd (congrArg Prod.fst he) (ne_of_lt h))
  have hperm : out.Perm cand := by
    rw [hios]; exact List.perm_insertionSort _ _
  have hond : out.Nodup := (hperm.nodup_iff).mpr hcnd
  have hsortedOut : List.Sorted scoreDescLe out := by
    rw [hios]; exact List.sorted_insertionSort _ _
  have hshape : ∀ a ∈ cand, a = (a.1, score a.1) := by
    rw [hcand_eq]
    intro a ha
    rcases List.mem_map.mp ha with ⟨n, _, rfl⟩
    rfl
  have hpairOut : out.Pairwise
      (fun a b => b.2 < a.2 ∨ (a.2 = b.2 ∧ a.1 < b.1)) := by
    rw [List.pairwise_iff_get]
    intro i j hij
    have hle : scoreDescLe (out.get i) (out.get j) :=
      hsortedOut.rel_get_of_lt hij
    by_cases hlt : (out.get j).2 < (out.get i).2
    · exact Or.inl hlt
    · have heq : (out.get i).2 = (out.get j).2 :=
        le_antisymm (not_lt.mp hlt) hle
      refine Or.inr ⟨heq, ?_⟩
      have hmem_a : out.get i ∈ cand := hperm.subset (out.get_mem _ _)
      have hmem_b : out.get j ∈ cand := hperm.subset (out.get_mem _ _)
      have hane : out.get i ≠ out.get j := by
        intro h
        exact absurd (hond.get_inj_iff.mp h) (Fin.ne_of_lt hij)
      rcases lt_trichotomy (out.get i).1 (out.get j).1 with h | h | h
      · exact h
      · exact absurd (by
          rw [hshape _ hmem_a, hshape _ hmem_b, h]) hane
      · have hba_cand : ([out.get j, out.get i]).Sublist cand :=
          pair_sublist_of_pairwise (fun x y hxy => lt_asymm hxy)
            cand _ _ hcp hmem_b hmem_a h
        have hba_out : ([out.get j, out.get i]).Sublist
            (cand.insertionSort scoreDescLe) :=
          List.pair_sublist_insertionSort (le_of_eq heq) hba_cand
        rw [← hios] at hba_out
        have hab_out : ([out.get i, out.get j]).Sublist out :=
          pair_sublist_of_get out i.1 j.1 i.isLt j.isLt hij
        exact absurd hba_out
          (fun hba => pair_sublist_antisym out _ _ hond hane hab_out hba)
  refine ⟨hperm, hpairOut, ?_⟩
  intro other hp hpw
  haveI : IsAntisymm (String × ℚ)
      (fun a b => b.2 < a.2 ∨ (a.2 = b.2 ∧ a.1 < b.1)) := ⟨by
    rintro a b (h1 | ⟨h1, h1'⟩) (h2 | ⟨h2, h2'⟩)
    · exact absurd h2 (lt_asymm h1)
    · exact absurd h1 (by rw [h2]; exact lt_irrefl _)
    · exact absurd h2 (by rw [h1]; exact lt_irrefl _)
    · exact absurd h2' (lt_asymm h1')⟩
  exact List.eq_of_perm_of_sorted (hp.trans hperm.symm) hpw hpairOut

/-- Witness for C7: two internal nodes with equal scores keep ascending FQN
order. -/
theorem ranking_deterministic_witness :
    (sorted_candidates ["m.a", "m.b"] [("m.a", "m.b")] [] ["m"]
      (fun _ => 1)).Pairwise
      (fun a b => b.2 < a.2 ∨ (a.2 = b.2 ∧ a.1 < b.1)) :=
  (ranking_deterministic ["m.a", "m.b"] [("m.a", "m.b")] [] ["m"]
    (fun _ => 1)
    (by
      refine List.pairwise_cons.mpr ⟨?_, List.pairwise_singleton _ _⟩
      intro b hb
      rcases List.mem_singleton.mp hb with rfl
      exact String.lt_iff_toList_lt.mpr (by decide))
    (by decide) (by decide)).2.1

end ProjectInsight
